import Mathlib

/-!
Shallow embedding of `net-utils-lib` (src/index.ts), a TypeScript library for
IPv4 address, mask and CIDR arithmetic with a VLSM subnet allocator.

Strings are modelled as `List Char`; thrown JS exceptions are modelled with
`Except String`; JS numbers flowing through the library are modelled as `Int`
(every number the library computes on the inputs considered here is an
integer; the few spots where JS would produce `NaN` are noted at the
definition that models them).
-/

set_option maxRecDepth 40000

deriving instance DecidableEq for Except

/-- `'0'`/`'1'` character for a bit, as produced by JS when a 0/1 number is
stringified into a binary string. -/
def bitChar (b : Bool) : Char := if b then '1' else '0'

/-- Test for a binary-digit character (the `[01]` character class). -/
def isBit (c : Char) : Bool := c = '0' || c = '1'

/-- Decimal value of a run of decimal digit characters. -/
def digitsVal (l : List Char) : Nat :=
  l.foldl (fun a c => 10 * a + (c.toNat - '0'.toNat)) 0

/-- Model of JS `parseInt(s)` (radix 10) restricted to the negative-sign and
digit-run shapes this library can feed it: an optional leading `'-'` followed
by a maximal run of decimal digits; no digits gives `NaN`, modelled as
`none`. (JS also skips leading whitespace and accepts `'+'`; no caller in
this library can produce such strings.) -/
def jsParseInt (l : List Char) : Option Int :=
  match l with
  | '-' :: rest =>
    let run := rest.takeWhile Char.isDigit
    if run.isEmpty then none else some (-(digitsVal run : Int))
  | _ =>
    let run := l.takeWhile Char.isDigit
    if run.isEmpty then none else some ((digitsVal run : Int))

/-- Big-endian value of a string of `'0'`/`'1'` characters; models JS
`parseInt(s, 2)` on the all-binary strings `binaryToIP` feeds it, and
`BigInt("0b" + s)`. -/
def bitsVal (l : List Char) : Nat :=
  l.foldl (fun a c => 2 * a + (c.toNat - '0'.toNat)) 0

/-- Little-endian `w`-bit binary rendering of `v % 2^w` (helper for the
binary rendering of a number). -/
def binLE : Nat → Nat → List Char
  | 0, _ => []
  | w + 1, v => bitChar (v % 2 = 1) :: binLE w (v / 2)

/-- Little-endian minimal binary rendering of `n` (empty for zero); the
first argument is fuel bounding the recursion depth, any fuel with
`n < 2 ^ fuel` computes the rendering. -/
def binMinAux : Nat → Nat → List Char
  | 0, _ => []
  | fuel + 1, n => if n = 0 then [] else bitChar (n % 2 = 1) :: binMinAux fuel (n / 2)

/-- Model of JS `n.toString(2)` for a nonnegative integer: the minimal
big-endian binary rendering (no leading zeros, and `"0"` for zero). Fuel 64
covers every value below `2 ^ 64`; the library only renders 33-bit
values. -/
def jsBin (n : Nat) : List Char :=
  if n = 0 then ['0'] else (binMinAux 64 n).reverse

/-- Model of JS `BigInt.prototype.toString(2)`: negative values render as a
`'-'` followed by the binary rendering of the magnitude. -/
def jsBinInt (i : Int) : List Char :=
  if i < 0 then '-' :: jsBin i.natAbs else jsBin i.toNat

/-- Model of JS `String.prototype.padStart(w, c)`. -/
def padStart (w : Nat) (c : Char) (l : List Char) : List Char :=
  List.replicate (w - l.length) c ++ l

/-- Model of JS `String.prototype.padEnd(w, c)`. -/
def padEnd (w : Nat) (c : Char) (l : List Char) : List Char :=
  l ++ List.replicate (w - l.length) c

/-- Model of JS `Array.prototype.join(sep)` for a single-character
separator. -/
def joinCh (sep : Char) : List (List Char) → List Char
  | [] => []
  | [g] => g
  | g :: gs => g ++ sep :: joinCh sep gs

/-- Model of JS `String.prototype.split(sep)` for a single-character
separator. -/
def splitCh (sep : Char) : List Char → List (List Char)
  | [] => [[]]
  | c :: cs =>
    match splitCh sep cs with
    | g :: gs => if c = sep then [] :: g :: gs else (c :: g) :: gs
    | [] => [[]]

/-- `isValidIPv4` (src/index.ts:37): the regex `/^(\d{1,3}\.){3}\d{1,3}$/`
holds exactly when splitting on `'.'` yields four runs of one to three
decimal digits; then every octet must parse to a value in `[0,255]`. -/
def isValidIPv4 (ip : List Char) : Bool :=
  let parts := splitCh '.' ip
  parts.length = 4 &&
    parts.all (fun p => 1 ≤ p.length && p.length ≤ 3 && p.all Char.isDigit) &&
    parts.all (fun p => digitsVal p ≤ 255)

/-- `isValidCIDR` (src/index.ts:48) on an integer argument (the
`Number.isInteger` test always holds in this integer model). -/
def isValidCIDR (cidr : Int) : Bool := 0 ≤ cidr && cidr ≤ 32

/-- `ipToBinary` (src/index.ts:71). -/
def ipToBinary (ip : List Char) : Except String (List Char) :=
  if isValidIPv4 ip then
    .ok (((splitCh '.' ip).map
      (fun octet => padStart 8 '0' (jsBin (digitsVal octet)))).flatten)
  else .error "Invalid IP address"

/-- The four 8-character chunks `/.{8}/g` extracts from a 32-character
string. -/
def chunk8 (l : List Char) : List (List Char) :=
  [l.take 8, (l.drop 8).take 8, (l.drop 16).take 8, l.drop 24]

/-- `binaryToIP` (src/index.ts:81): guard that the input is exactly 32
binary digits, then render each 8-bit chunk in decimal, joined with
`'.'`. -/
def binaryToIP (binary : List Char) : Except String (List Char) :=
  if binary.length = 32 && binary.all isBit then
    .ok (joinCh '.'
      ((chunk8 binary).map (fun octet => (Nat.repr (bitsVal octet)).data)))
  else .error "Invalid binary string"

/-- `calculateSubnetMask` (src/index.ts:91). -/
def calculateSubnetMask (cidr : Int) : Except String (List Char) :=
  if isValidCIDR cidr then
    binaryToIP (padEnd 32 '0' (List.replicate cidr.toNat '1'))
  else .error "Invalid CIDR notation"

/-- `calculateCIDR` (src/index.ts:102): `split('0')[0].length` on the binary
form counts the characters before the first `'0'`. -/
def calculateCIDR (subnetMask : List Char) : Except String Int :=
  if isValidIPv4 subnetMask then do
    let b ← ipToBinary subnetMask
    .ok ((b.takeWhile (fun c => c ≠ '0')).length : Int)
  else .error "Invalid subnet mask"

/-- `normalizeMaskToCIDR` (src/index.ts:113): the numeric interpretation via
`parseInt` is tried first; only when that is not a valid CIDR is the input
read as a dotted mask. -/
def normalizeMaskToCIDR (s : List Char) : Except String Int :=
  match jsParseInt s with
  | some n =>
    if isValidCIDR n then .ok n
    else if isValidIPv4 s then calculateCIDR s
    else .error "Invalid subnet mask or CIDR notation"
  | none =>
    if isValidIPv4 s then calculateCIDR s
    else .error "Invalid subnet mask or CIDR notation"

/-- Bitwise AND of two binary strings, character by character
(`Number(bit) & Number(maskBinary[index])` under a `map` over the first
string; the strings this library combines always both have length 32). -/
def andBits (a b : List Char) : List Char :=
  List.zipWith (fun x y => bitChar (x = '1' && y = '1')) a b

/-- Bitwise OR of two binary strings, character by character. -/
def orBits (a b : List Char) : List Char :=
  List.zipWith (fun x y => bitChar (x = '1' || y = '1')) a b

/-- Character-wise complement of a binary string
(`bit === '0' ? '1' : '0'`). -/
def notBits (a : List Char) : List Char :=
  a.map (fun c => if c = '0' then '1' else '0')

/-- `calculateNetworkAddress` (src/index.ts:129). -/
def calculateNetworkAddress (ip s : List Char) : Except String (List Char) :=
  if isValidIPv4 ip then do
    let cidr ← normalizeMaskToCIDR s
    let subnetMask ← calculateSubnetMask cidr
    let ipBinary ← ipToBinary ip
    let maskBinary ← ipToBinary subnetMask
    binaryToIP (andBits ipBinary maskBinary)
  else .error "Invalid IP address"

/-- `calculateBroadcastAddress` (src/index.ts:145). -/
def calculateBroadcastAddress (ip s : List Char) : Except String (List Char) :=
  if isValidIPv4 ip then do
    let cidr ← normalizeMaskToCIDR s
    let subnetMask ← calculateSubnetMask cidr
    let ipBinary ← ipToBinary ip
    let maskBinary ← ipToBinary subnetMask
    binaryToIP (orBits ipBinary (notBits maskBinary))
  else .error "Invalid IP address"

/-- `incrementIP` (src/index.ts:176): add one to the address value and
re-render; when the sum needs 33 binary digits the `binaryToIP` length guard
rejects it. -/
def incrementIP (ip : List Char) : Except String (List Char) := do
  let b ← ipToBinary ip
  binaryToIP (padStart 32 '0' (jsBin (bitsVal b + 1)))

/-- `decrementIP` (src/index.ts:186): subtract one (as a signed `BigInt`)
and re-render; `0.0.0.0` renders as the 32-character string `0…0-1`, which
the `binaryToIP` character guard rejects. -/
def decrementIP (ip : List Char) : Except String (List Char) := do
  let b ← ipToBinary ip
  binaryToIP (padStart 32 '0' (jsBinInt ((bitsVal b : Int) - 1)))

/-- `calculateIPRange` (src/index.ts:162); note `firstIP` is computed before
`broadcast`, so an increment failure surfaces first. -/
def calculateIPRange (networkAddress s : List Char) :
    Except String (List Char × List Char) := do
  let cidr ← normalizeMaskToCIDR s
  let subnetMask ← calculateSubnetMask cidr
  let firstIP ← incrementIP networkAddress
  let broadcast ← calculateBroadcastAddress networkAddress subnetMask
  let lastIP ← decrementIP broadcast
  .ok (firstIP, lastIP)

/-- `calculateAvailableIPs` (src/index.ts:196): `2^(32-cidr) - 2`; the
normalized CIDR always lies in `[0,32]`, so the exponent is a natural
number and `Math.pow` is exact. -/
def calculateAvailableIPs (s : List Char) : Except String Int := do
  let cidr ← normalizeMaskToCIDR s
  .ok ((2 : Int) ^ (32 - cidr).toNat - 2)

/-- `calculateWildCardMask` (src/index.ts:205). -/
def calculateWildCardMask (s : List Char) : Except String (List Char) := do
  let cidr ← normalizeMaskToCIDR s
  let subnetMask ← calculateSubnetMask cidr
  let maskBinary ← ipToBinary subnetMask
  binaryToIP (notBits maskBinary)

/-- Ceiling of the base-two logarithm (zero for `n ≤ 1`); the first
argument is fuel bounding the recursion depth, any `fuel ≥ n` computes the
value. Agrees with `Nat.clog 2` (proved below). -/
def clog2Aux : Nat → Nat → Nat
  | 0, _ => 0
  | fuel + 1, n => if n ≤ 1 then 0 else clog2Aux fuel ((n + 1) / 2) + 1

/-- The per-count sizing step of `calculateRequiredSubnets`
(src/index.ts:222): `32 - Math.ceil(Math.log2(count + 2))`. For integer
`count` with `count + 2 ≥ 1` the double-precision computation is exact and
`Math.ceil (Math.log2 n)` is the ceiling of the base-two logarithm. -/
def requiredCidr (count : Int) : Int :=
  32 - (clog2Aux (count + 2).toNat (count + 2).toNat : Int)

/-- Descending numeric sort, the observable effect of
`.sort((a, b) => b - a)` on an integer array. -/
def sortDesc (l : List Int) : List Int :=
  l.insertionSort (· ≥ ·)

/-- Ascending numeric sort, the observable effect of
`.sort((a, b) => a - b)` on an integer array. -/
def sortAsc (l : List Int) : List Int :=
  l.insertionSort (· ≤ ·)

/-- `calculateRequiredSubnets` (src/index.ts:218), with the mutation made
explicit: the caller's array is sorted descending **in place** before the
sizing map, so the function both returns the sorted prefix list (first
component) and leaves the argument array reordered (second component).
Counts below `-1` would make `Math.log2` produce `NaN`; such lists are
outside this integer model and are mapped to an error (every caller that
could reach arithmetic on the `NaN` throws in JS). -/
def calculateRequiredSubnetsSt (hostCounts : List Int) :
    Except String (List Int × List Int) :=
  if hostCounts.all (fun c => -1 ≤ c) then
    let sorted := sortDesc hostCounts
    .ok (sortDesc (sorted.map requiredCidr), sorted)
  else .error "NaN subnet size"

/-- The return value of `calculateRequiredSubnets` (src/index.ts:218). -/
def calculateRequiredSubnets (hostCounts : List Int) : Except String (List Int) :=
  (calculateRequiredSubnetsSt hostCounts).map Prod.fst

/-- The record produced for each allocated subnet by `allocateSubnets`
(src/index.ts:247-256). -/
structure SubnetAllocation where
  network : List Char
  subnetMask : List Char
  cidr : Int
  broadcast : List Char
  firstIP : List Char
  lastIP : List Char
  wildCardMask : List Char
  availableIPs : Int
deriving Repr, DecidableEq

/-- The body of the `subnetSizes.map` loop of `allocateSubnets`
(src/index.ts:240-257), with the mutable `currentNetwork` cursor threaded
explicitly; any thrown error aborts the whole map. -/
def allocGo : List Int → List Char → Except String (List SubnetAllocation)
  | [], _ => .ok []
  | size :: rest, currentNetwork => do
    let subnetMask ← calculateSubnetMask size
    let network ← binaryToIP currentNetwork
    let broadcast ← calculateBroadcastAddress network subnetMask
    let range ← calculateIPRange network subnetMask
    let nextIp ← incrementIP broadcast
    let nextNetwork ← ipToBinary nextIp
    let wc ← calculateWildCardMask subnetMask
    let avail ← calculateAvailableIPs (Int.repr size).data
    let rs ← allocGo rest nextNetwork
    .ok ({ network := network, subnetMask := subnetMask, cidr := size,
           broadcast := broadcast, firstIP := range.1, lastIP := range.2,
           wildCardMask := wc, availableIPs := avail } :: rs)

/-- `allocateSubnets` (src/index.ts:234). -/
def allocateSubnets (ip s : List Char) (hostsPerSubnet : List Int) :
    Except String (List SubnetAllocation) := do
  let networkAddress ← calculateNetworkAddress ip s
  let currentNetwork ← ipToBinary networkAddress
  let sizes ← calculateRequiredSubnetsSt hostsPerSubnet
  allocGo (sortAsc sizes.1) currentNetwork

/-- Numeric value of a dotted-decimal address string: four octet values
read off the text, combined big-endian. This is the specification-side
reading of an address used to state numeric claims about the library's
string outputs. -/
def ipNum (s : List Char) : Option Nat :=
  match (splitCh '.' s).map (fun p =>
      if p ≠ [] && p.all Char.isDigit then some (digitsVal p) else none) with
  | [some a, some b, some c, some d] => some (((a * 256 + b) * 256 + c) * 256 + d)
  | _ => none

/-! ## Specification-side values -/

/-- 32-bit value of the subnet mask with `c` leading one bits. -/
def maskVal (c : Nat) : Nat := 2 ^ 32 - 2 ^ (32 - c)

/-- 32-bit value of the wildcard mask for `c`: bitwise complement of
`maskVal c` within 32 bits. -/
def wildVal (c : Nat) : Nat := 2 ^ 32 - 1 - maskVal c

/-- Canonical dotted-decimal text of a 32-bit value: four big-endian octets
rendered in decimal without leading zeros. -/
def canonicalIp (v : Nat) : List Char :=
  joinCh '.' [(Nat.repr (v / 16777216)).data, (Nat.repr (v / 65536 % 256)).data,
    (Nat.repr (v / 256 % 256)).data, (Nat.repr (v % 256)).data]

/-- Little-endian numeric value of a binary character list (characters
other than `'1'` count as zero). -/
def valLE : List Char → Nat
  | [] => 0
  | c :: cs => (if c = '1' then 1 else 0) + 2 * valLE cs

/-- Big-endian 32-character binary string of a 32-bit value. -/
def bin32 (v : Nat) : List Char := (binLE 32 v).reverse

/-! ## Binary string arithmetic lemmas -/

theorem binLE_length (w v : Nat) : (binLE w v).length = w := by
  induction w generalizing v with
  | zero => rfl
  | succ w ih => simp [binLE, ih]

theorem binLE_isBit (w v : Nat) : ∀ c ∈ binLE w v, isBit c = true := by
  induction w generalizing v with
  | zero => simp [binLE]
  | succ w ih =>
    simp only [binLE, List.mem_cons, forall_eq_or_imp]
    refine ⟨?_, ih _⟩
    by_cases h : v % 2 = 1 <;> simp [bitChar, isBit, h]

theorem valLE_binLE (w v : Nat) : valLE (binLE w v) = v % 2 ^ w := by
  induction w generalizing v with
  | zero => simp [binLE, valLE, Nat.mod_one]
  | succ w ih =>
    have h2 : v % 2 ^ (w + 1) = v % 2 + 2 * (v / 2 % 2 ^ w) := by
      rw [pow_succ', Nat.mod_mul]
    simp only [binLE, valLE]
    rw [ih, h2]
    by_cases h : v % 2 = 1 <;> simp [bitChar, h] <;> omega

theorem binLE_zero (w : Nat) : binLE w 0 = List.replicate w '0' := by
  induction w with
  | zero => rfl
  | succ w ih => simp [binLE, bitChar, ih, List.replicate_succ]

theorem binLE_split (w1 w2 v : Nat) :
    binLE (w1 + w2) v = binLE w1 v ++ binLE w2 (v / 2 ^ w1) := by
  induction w1 generalizing v with
  | zero => simp [binLE]
  | succ w1 ih =>
    have hw : w1 + 1 + w2 = (w1 + w2) + 1 := by omega
    have harg : v / 2 / 2 ^ w1 = v / 2 ^ (w1 + 1) := by
      rw [Nat.div_div_eq_div_mul, ← pow_succ']
    rw [hw]
    simp only [binLE, List.cons_append]
    rw [ih, harg]

theorem binLE_mod (w v : Nat) : binLE w (v % 2 ^ w) = binLE w v := by
  induction w generalizing v with
  | zero => rfl
  | succ w ih =>
    have h2 : v % 2 ^ (w + 1) = v % 2 + 2 * (v / 2 % 2 ^ w) := by
      rw [pow_succ', Nat.mod_mul]
    have hm2 : v % 2 ^ (w + 1) % 2 = v % 2 := by omega
    have hd2 : v % 2 ^ (w + 1) / 2 = v / 2 % 2 ^ w := by omega
    simp only [binLE]
    rw [hm2, hd2, ih]

theorem valLE_lt (l : List Char) : valLE l < 2 ^ l.length := by
  induction l with
  | nil => simp [valLE]
  | cons c cs ih =>
    simp only [valLE, List.length_cons, pow_succ]
    by_cases h : c = '1' <;> simp [h] <;> omega

theorem valLE_append (a b : List Char) :
    valLE (a ++ b) = valLE a + 2 ^ a.length * valLE b := by
  induction a with
  | nil => simp [valLE]
  | cons c cs ih =>
    have hc : (c :: cs) ++ b = c :: (cs ++ b) := rfl
    rw [hc]
    simp only [valLE, ih, List.length_cons, pow_succ]
    ring

theorem valLE_cons_bit (c : Char) (cs : List Char) :
    valLE (c :: cs) = Nat.bit (c = '1') (valLE cs) := by
  by_cases h : c = '1' <;> simp [valLE, Nat.bit, h] <;> omega

theorem bitChar_eq_one (b : Bool) : (bitChar b = '1') = b := by
  cases b <;> simp [bitChar]

theorem bitsVal_foldl (l : List Char) (a : Nat) (h : ∀ c ∈ l, isBit c = true) :
    l.foldl (fun a c => 2 * a + (c.toNat - '0'.toNat)) a =
      a * 2 ^ l.length + valLE l.reverse := by
  induction l generalizing a with
  | nil => simp [valLE]
  | cons c cs ih =>
    have hc : isBit c = true := h c (List.mem_cons_self ..)
    have hcs : ∀ x ∈ cs, isBit x = true := fun x hx => h x (List.mem_cons_of_mem _ hx)
    have hv : c.toNat - '0'.toNat = if c = '1' then 1 else 0 := by
      simp only [isBit, Bool.or_eq_true, decide_eq_true_eq] at hc
      rcases hc with h0 | h1 <;> subst_vars <;> decide
    simp only [List.foldl_cons, ih _ hcs, List.reverse_cons, valLE_append,
      List.length_reverse, List.length_cons, valLE, List.length_nil]
    rw [hv]
    by_cases h1 : c = '1' <;> simp [h1, pow_succ] <;> ring

theorem bitsVal_eq_valLE (l : List Char) (h : ∀ c ∈ l, isBit c = true) :
    bitsVal l = valLE l.reverse := by
  simpa using bitsVal_foldl l 0 h

theorem valLE_orBits (a b : List Char) (h : a.length = b.length) :
    valLE (List.zipWith (fun x y => bitChar (x = '1' || y = '1')) a b) =
      valLE a ||| valLE b := by
  induction a generalizing b with
  | nil => cases b <;> simp_all [valLE]
  | cons c cs ih =>
    cases b with
    | nil => simp at h
    | cons d ds =>
      simp only [List.length_cons, Nat.add_right_cancel_iff] at h
      simp only [List.zipWith_cons_cons, valLE_cons_bit, bitChar_eq_one,
        decide_eq_true_eq, ih ds h]
      rw [Nat.lor_bit]
      simp

theorem valLE_andBits (a b : List Char) (h : a.length = b.length) :
    valLE (List.zipWith (fun x y => bitChar (x = '1' && y = '1')) a b) =
      valLE a &&& valLE b := by
  induction a generalizing b with
  | nil => cases b <;> simp_all [valLE]
  | cons c cs ih =>
    cases b with
    | nil => simp at h
    | cons d ds =>
      simp only [List.length_cons, Nat.add_right_cancel_iff] at h
      simp only [List.zipWith_cons_cons, valLE_cons_bit, bitChar_eq_one,
        decide_eq_true_eq, ih ds h]
      rw [Nat.land_bit]
      simp

theorem valLE_le_orBits (a b : List Char) (h : a.length = b.length) :
    valLE a ≤ valLE (List.zipWith (fun x y => bitChar (x = '1' || y = '1')) a b) := by
  induction a generalizing b with
  | nil => simp [valLE]
  | cons c cs ih =>
    cases b with
    | nil => simp at h
    | cons d ds =>
      simp only [List.length_cons, Nat.add_right_cancel_iff] at h
      have hih := ih ds h
      simp only [List.zipWith_cons_cons, valLE, bitChar_eq_one]
      by_cases h1 : c = '1' <;> by_cases h2 : d = '1' <;>
        simp [h1, h2] <;> omega

theorem valLE_notBits (a : List Char) (h : ∀ c ∈ a, isBit c = true) :
    valLE (notBits a) = 2 ^ a.length - 1 - valLE a := by
  induction a with
  | nil => simp [notBits, valLE]
  | cons c cs ih =>
    have hc : isBit c = true := h c (List.mem_cons_self ..)
    have hcs : ∀ x ∈ cs, isBit x = true := fun x hx => h x (List.mem_cons_of_mem _ hx)
    have hlt := valLE_lt cs
    simp only [isBit, Bool.or_eq_true, decide_eq_true_eq] at hc
    simp only [notBits, List.map_cons, valLE, List.length_cons, pow_succ]
    rw [show (cs.map fun c => if c = '0' then '1' else '0') = notBits cs from rfl,
      ih hcs]
    rcases hc with h0 | h1 <;> subst_vars <;> simp <;> omega

theorem notBits_length (a : List Char) : (notBits a).length = a.length := by
  simp [notBits]

theorem notBits_isBit (a : List Char) : ∀ c ∈ notBits a, isBit c = true := by
  intro c hc
  simp only [notBits, List.mem_map] at hc
  obtain ⟨x, -, hx⟩ := hc
  by_cases h : x = '0' <;> simp [h] at hx <;> simp [← hx, isBit]

/-! ## Minimal binary rendering and padding -/

theorem binMinAux_zero (fuel : Nat) : binMinAux fuel 0 = [] := by
  cases fuel <;> simp [binMinAux]

theorem binLE_eq_binMinAux (w : Nat) : ∀ fuel n, n < 2 ^ fuel → n < 2 ^ w →
    binLE w n = binMinAux fuel n ++
      List.replicate (w - (binMinAux fuel n).length) '0' := by
  induction w with
  | zero =>
    intro fuel n _ hw
    interval_cases n
    simp [binLE, binMinAux_zero]
  | succ w ih =>
    intro fuel n hf hw
    by_cases hn : n = 0
    · subst hn
      simp [binLE_zero, binMinAux_zero]
    · cases fuel with
      | zero => simp at hf; omega
      | succ f =>
        have hrec : n / 2 < 2 ^ f := by
          have : (2 : Nat) ^ (f + 1) = 2 * 2 ^ f := by rw [pow_succ']
          omega
        have hlt : n / 2 < 2 ^ w := by
          have : (2 : Nat) ^ (w + 1) = 2 * 2 ^ w := by rw [pow_succ']
          omega
        simp only [binLE, binMinAux, hn, if_false]
        rw [ih f (n / 2) hrec hlt]
        simp [List.length_cons]

theorem padStart_jsBin (w n : Nat) (hw : 1 ≤ w) (hw64 : w ≤ 64)
    (h : n < 2 ^ w) : padStart w '0' (jsBin n) = (binLE w n).reverse := by
  by_cases hn : n = 0
  · subst hn
    have h0 : jsBin 0 = ['0'] := rfl
    rw [h0, binLE_zero, List.reverse_replicate]
    simp only [padStart, List.length_cons, List.length_nil, Nat.zero_add]
    rw [← List.replicate_succ']
    congr 1
    omega
  · have h64 : n < 2 ^ 64 :=
      Nat.lt_of_lt_of_le h (Nat.pow_le_pow_right (by norm_num) hw64)
    simp only [jsBin, hn, if_false, padStart, List.length_reverse]
    rw [binLE_eq_binMinAux w 64 n h64 h]
    rw [List.reverse_append, List.reverse_replicate]

/-! ## Split and join lemmas -/

theorem splitCh_ne_nil (sep : Char) (l : List Char) : splitCh sep l ≠ [] := by
  cases l with
  | nil => simp [splitCh]
  | cons c cs =>
    simp only [splitCh]
    cases h : splitCh sep cs with
    | nil => simp
    | cons g gs => by_cases hc : c = sep <;> simp [hc]

theorem joinCh_cons (sep : Char) (g : List Char) (gs : List (List Char))
    (h : gs ≠ []) : joinCh sep (g :: gs) = g ++ sep :: joinCh sep gs := by
  cases gs with
  | nil => exact absurd rfl h
  | cons g2 gs2 => rfl

theorem joinCh_splitCh (sep : Char) (l : List Char) :
    joinCh sep (splitCh sep l) = l := by
  induction l with
  | nil => rfl
  | cons c cs ih =>
    simp only [splitCh]
    cases h : splitCh sep cs with
    | nil => exact absurd h (splitCh_ne_nil sep cs)
    | cons g gs =>
      rw [h] at ih
      dsimp only
      by_cases hc : c = sep
      · subst hc
        rw [if_pos rfl, joinCh_cons _ _ _ (by simp)]
        simp [ih]
      · simp only [if_neg hc]
        cases gs with
        | nil =>
          simp only [joinCh] at ih ⊢
          simp [ih]
        | cons g2 gs2 =>
          rw [joinCh_cons _ _ _ (by simp)]
          rw [joinCh_cons _ _ _ (by simp)] at ih
          simp [← ih]

theorem splitCh_sepfree (sep : Char) (xs : List Char)
    (h : ∀ c ∈ xs, c ≠ sep) : splitCh sep xs = [xs] := by
  induction xs with
  | nil => rfl
  | cons c cs ih =>
    have hc : c ≠ sep := h c (List.mem_cons_self ..)
    have hcs : ∀ x ∈ cs, x ≠ sep := fun x hx => h x (List.mem_cons_of_mem _ hx)
    simp only [splitCh, ih hcs]
    simp [hc]

theorem splitCh_append (sep : Char) (xs ys : List Char)
    (h : ∀ c ∈ xs, c ≠ sep) :
    splitCh sep (xs ++ sep :: ys) = xs :: splitCh sep ys := by
  induction xs with
  | nil =>
    simp only [List.nil_append, splitCh]
    cases hy : splitCh sep ys with
    | nil => exact absurd hy (splitCh_ne_nil sep ys)
    | cons g gs => simp
  | cons c cs ih =>
    have hc : c ≠ sep := h c (List.mem_cons_self ..)
    have hcs : ∀ x ∈ cs, x ≠ sep := fun x hx => h x (List.mem_cons_of_mem _ hx)
    have e : (c :: cs) ++ sep :: ys = c :: (cs ++ sep :: ys) := rfl
    rw [e]
    simp only [splitCh]
    rw [ih hcs]
    simp [hc]

/-! ## Decimal octet rendering facts -/

theorem isDigit_ne_dot (c : Char) (h : c.isDigit = true) : c ≠ '.' := by
  intro he
  subst he
  exact absurd h (by decide)

theorem reprFacts : ∀ n : Nat, n < 256 → digitsVal (Nat.repr n).data = n ∧
    (Nat.repr n).data.all Char.isDigit = true ∧ 1 ≤ (Nat.repr n).data.length ∧
    (Nat.repr n).data.length ≤ 3 := by decide

theorem repr_dotfree (n : Nat) (h : n < 256) :
    ∀ c ∈ (Nat.repr n).data, c ≠ '.' := by
  intro c hc
  have hall := (reprFacts n h).2.1
  rw [List.all_eq_true] at hall
  exact isDigit_ne_dot c (hall c hc)

/-! ## Canonical address text -/

theorem octCond (p : List Char) (hne : p ≠ []) (ha : p.all Char.isDigit = true) :
    (p ≠ [] && p.all Char.isDigit) = true := by simp [hne, ha]

theorem octet1_lt (v : Nat) (hv : v < 2 ^ 32) : v / 16777216 < 256 := by
  have h32 : (2 : Nat) ^ 32 = 4294967296 := by norm_num
  omega

theorem splitCh_canonicalIp (v : Nat) (hv : v < 2 ^ 32) :
    splitCh '.' (canonicalIp v) =
      [(Nat.repr (v / 16777216)).data, (Nat.repr (v / 65536 % 256)).data,
       (Nat.repr (v / 256 % 256)).data, (Nat.repr (v % 256)).data] := by
  have e : canonicalIp v =
      (Nat.repr (v / 16777216)).data ++ '.' :: ((Nat.repr (v / 65536 % 256)).data
        ++ '.' :: ((Nat.repr (v / 256 % 256)).data
          ++ '.' :: (Nat.repr (v % 256)).data)) := rfl
  rw [e, splitCh_append _ _ _ (repr_dotfree _ (octet1_lt v hv)),
    splitCh_append _ _ _ (repr_dotfree _ (Nat.mod_lt _ (by norm_num))),
    splitCh_append _ _ _ (repr_dotfree _ (Nat.mod_lt _ (by norm_num))),
    splitCh_sepfree _ _ (repr_dotfree _ (Nat.mod_lt _ (by norm_num)))]

theorem isValidIPv4_canonicalIp (v : Nat) (hv : v < 2 ^ 32) :
    isValidIPv4 (canonicalIp v) = true := by
  obtain ⟨d1, a1, l1, u1⟩ := reprFacts _ (octet1_lt v hv)
  obtain ⟨d2, a2, l2, u2⟩ := reprFacts (v / 65536 % 256) (Nat.mod_lt _ (by norm_num))
  obtain ⟨d3, a3, l3, u3⟩ := reprFacts (v / 256 % 256) (Nat.mod_lt _ (by norm_num))
  obtain ⟨d4, a4, l4, u4⟩ := reprFacts (v % 256) (Nat.mod_lt _ (by norm_num))
  have h1 : v / 16777216 ≤ 255 := by have := octet1_lt v hv; omega
  have h2 : v / 65536 % 256 ≤ 255 := by omega
  have h3 : v / 256 % 256 ≤ 255 := by omega
  have h4 : v % 256 ≤ 255 := by omega
  simp only [isValidIPv4, splitCh_canonicalIp v hv]
  simp_all

theorem ipNum_canonicalIp (v : Nat) (hv : v < 2 ^ 32) :
    ipNum (canonicalIp v) = some v := by
  obtain ⟨d1, a1, l1, u1⟩ := reprFacts _ (octet1_lt v hv)
  obtain ⟨d2, a2, l2, u2⟩ := reprFacts (v / 65536 % 256) (Nat.mod_lt _ (by norm_num))
  obtain ⟨d3, a3, l3, u3⟩ := reprFacts (v / 256 % 256) (Nat.mod_lt _ (by norm_num))
  obtain ⟨d4, a4, l4, u4⟩ := reprFacts (v % 256) (Nat.mod_lt _ (by norm_num))
  have n1 : (Nat.repr (v / 16777216)).data ≠ [] := by
    intro h; rw [h] at l1; simp at l1
  have n2 : (Nat.repr (v / 65536 % 256)).data ≠ [] := by
    intro h; rw [h] at l2; simp at l2
  have n3 : (Nat.repr (v / 256 % 256)).data ≠ [] := by
    intro h; rw [h] at l3; simp at l3
  have n4 : (Nat.repr (v % 256)).data ≠ [] := by
    intro h; rw [h] at l4; simp at l4
  simp only [ipNum, splitCh_canonicalIp v hv, List.map_cons, List.map_nil]
  rw [if_pos (octCond _ n1 a1), if_pos (octCond _ n2 a2),
    if_pos (octCond _ n3 a3), if_pos (octCond _ n4 a4)]
  dsimp only
  simp only [d1, d2, d3, d4, Option.some.injEq]
  have h32 : (2 : Nat) ^ 32 = 4294967296 := by norm_num
  omega

/-! ## 32-bit binary strings -/

theorem bin32_length (v : Nat) : (bin32 v).length = 32 := by
  simp [bin32, binLE_length]

theorem bin32_isBit (v : Nat) : ∀ c ∈ bin32 v, isBit c = true := by
  intro c hc
  rw [bin32, List.mem_reverse] at hc
  exact binLE_isBit 32 v c hc

theorem bitsVal_bin32 (v : Nat) (hv : v < 2 ^ 32) : bitsVal (bin32 v) = v := by
  rw [bitsVal_eq_valLE _ (bin32_isBit v), bin32, List.reverse_reverse,
    valLE_binLE, Nat.mod_eq_of_lt hv]

theorem ipToBinary_canonicalIp (v : Nat) (hv : v < 2 ^ 32) :
    ipToBinary (canonicalIp v) = .ok (bin32 v) := by
  have m8 : (2 : Nat) ^ 8 = 256 := by norm_num
  obtain ⟨d1, a1, l1, u1⟩ := reprFacts _ (octet1_lt v hv)
  obtain ⟨d2, a2, l2, u2⟩ := reprFacts (v / 65536 % 256) (Nat.mod_lt _ (by norm_num))
  obtain ⟨d3, a3, l3, u3⟩ := reprFacts (v / 256 % 256) (Nat.mod_lt _ (by norm_num))
  obtain ⟨d4, a4, l4, u4⟩ := reprFacts (v % 256) (Nat.mod_lt _ (by norm_num))
  rw [ipToBinary, if_pos (isValidIPv4_canonicalIp v hv), splitCh_canonicalIp v hv]
  simp only [List.map_cons, List.map_nil, d1, d2, d3, d4]
  rw [padStart_jsBin 8 _ (by norm_num) (by norm_num) (by rw [m8]; exact octet1_lt v hv),
    padStart_jsBin 8 _ (by norm_num) (by norm_num) (by rw [m8]; exact Nat.mod_lt _ (by norm_num)),
    padStart_jsBin 8 _ (by norm_num) (by norm_num) (by rw [m8]; exact Nat.mod_lt _ (by norm_num)),
    padStart_jsBin 8 _ (by norm_num) (by norm_num) (by rw [m8]; exact Nat.mod_lt _ (by norm_num))]
  have s1 : binLE 32 v = binLE 8 v ++ binLE 24 (v / 2 ^ 8) := binLE_split 8 24 v
  have s2 : binLE 24 (v / 2 ^ 8) =
      binLE 8 (v / 2 ^ 8) ++ binLE 16 (v / 2 ^ 8 / 2 ^ 8) := binLE_split 8 16 _
  have s3 : binLE 16 (v / 2 ^ 8 / 2 ^ 8) =
      binLE 8 (v / 2 ^ 8 / 2 ^ 8) ++ binLE 8 (v / 2 ^ 8 / 2 ^ 8 / 2 ^ 8) :=
    binLE_split 8 8 _
  have e2 : v / 256 % 256 = v / 2 ^ 8 % 2 ^ 8 := by rw [m8]
  have e3 : v / 65536 % 256 = v / 2 ^ 8 / 2 ^ 8 % 2 ^ 8 := by
    rw [m8, Nat.div_div_eq_div_mul]
  have e4 : v / 16777216 = v / 2 ^ 8 / 2 ^ 8 / 2 ^ 8 := by
    rw [Nat.div_div_eq_div_mul, Nat.div_div_eq_div_mul, m8]
  have e4' : v / 2 ^ 8 / 2 ^ 8 / 2 ^ 8 % 2 ^ 8 = v / 2 ^ 8 / 2 ^ 8 / 2 ^ 8 := by
    apply Nat.mod_eq_of_lt
    rw [← e4, m8]
    exact octet1_lt v hv
  congr 1
  rw [bin32, s1, s2, s3]
  simp only [List.flatten_cons, List.flatten_nil, List.append_nil,
    List.reverse_append, List.append_assoc]
  have e1 : v % 256 = v % 2 ^ 8 := by rw [m8]
  rw [e2, e3, e4, e1, binLE_mod, binLE_mod, binLE_mod]

/-! ## Characterization of binaryToIP -/

theorem binaryToIP_wf (b : List Char) (hlen : b.length = 32)
    (hbit : ∀ c ∈ b, isBit c = true) :
    binaryToIP b = .ok (canonicalIp (bitsVal b)) ∧ bitsVal b < 2 ^ 32 := by
  have hall : b.all isBit = true := by
    rw [List.all_eq_true]; exact hbit
  have ht1 : (b.take 8).length = 8 := by rw [List.length_take]; omega
  have hd8 : (b.drop 8).length = 24 := by rw [List.length_drop]; omega
  have ht2 : ((b.drop 8).take 8).length = 8 := by
    rw [List.length_take, List.length_drop]; omega
  have ht3 : ((b.drop 16).take 8).length = 8 := by
    rw [List.length_take, List.length_drop]; omega
  have ht4 : (b.drop 24).length = 8 := by rw [List.length_drop]; omega
  have hsplit : b = b.take 8 ++ ((b.drop 8).take 8 ++ ((b.drop 16).take 8
      ++ b.drop 24)) := by
    conv_lhs => rw [← List.take_append_drop 8 b]
    congr 1
    conv_lhs => rw [← List.take_append_drop 8 (b.drop 8)]
    rw [List.drop_drop]
    congr 1
    conv_lhs => rw [← List.take_append_drop 8 (b.drop 16)]
    rw [List.drop_drop]
  have bit1 : ∀ c ∈ b.take 8, isBit c = true :=
    fun c hc => hbit c (List.mem_of_mem_take hc)
  have bit2 : ∀ c ∈ (b.drop 8).take 8, isBit c = true :=
    fun c hc => hbit c (List.mem_of_mem_drop (List.mem_of_mem_take hc))
  have bit3 : ∀ c ∈ (b.drop 16).take 8, isBit c = true :=
    fun c hc => hbit c (List.mem_of_mem_drop (List.mem_of_mem_take hc))
  have bit4 : ∀ c ∈ b.drop 24, isBit c = true :=
    fun c hc => hbit c (List.mem_of_mem_drop hc)
  have o1 := valLE_lt (b.take 8).reverse
  have o2 := valLE_lt ((b.drop 8).take 8).reverse
  have o3 := valLE_lt ((b.drop 16).take 8).reverse
  have o4 := valLE_lt (b.drop 24).reverse
  rw [List.length_reverse, ht1] at o1
  rw [List.length_reverse, ht2] at o2
  rw [List.length_reverse, ht3] at o3
  rw [List.length_reverse, ht4] at o4
  have hV : bitsVal b = valLE (b.drop 24).reverse
      + 256 * (valLE ((b.drop 16).take 8).reverse
        + 256 * (valLE ((b.drop 8).take 8).reverse
          + 256 * valLE (b.take 8).reverse)) := by
    rw [bitsVal_eq_valLE _ hbit]
    conv_lhs => rw [hsplit]
    simp only [List.reverse_append, valLE_append, List.length_append,
      List.length_reverse, ht1, ht2, ht3, ht4]
    have m8 : (2 : Nat) ^ 8 = 256 := by norm_num
    rw [m8]
    ring
  have hVlt : bitsVal b < 2 ^ 32 := by
    have m32 : (2 : Nat) ^ 32 = 4294967296 := by norm_num
    have h8 : (2 : Nat) ^ 8 = 256 := by norm_num
    rw [h8] at o1 o2 o3 o4
    omega
  refine ⟨?_, hVlt⟩
  rw [binaryToIP, if_pos (by rw [hlen, hall]; rfl)]
  have r1 : bitsVal (b.take 8) = valLE (b.take 8).reverse :=
    bitsVal_eq_valLE _ bit1
  have r2 : bitsVal ((b.drop 8).take 8) = valLE ((b.drop 8).take 8).reverse :=
    bitsVal_eq_valLE _ bit2
  have r3 : bitsVal ((b.drop 16).take 8) = valLE ((b.drop 16).take 8).reverse :=
    bitsVal_eq_valLE _ bit3
  have r4 : bitsVal (b.drop 24) = valLE (b.drop 24).reverse :=
    bitsVal_eq_valLE _ bit4
  have h8 : (2 : Nat) ^ 8 = 256 := by norm_num
  rw [h8] at o1 o2 o3 o4
  simp only [chunk8, List.map_cons, List.map_nil, r1, r2, r3, r4]
  have g1 : valLE (b.take 8).reverse = bitsVal b / 16777216 := by omega
  have g2 : valLE ((b.drop 8).take 8).reverse = bitsVal b / 65536 % 256 := by
    omega
  have g3 : valLE ((b.drop 16).take 8).reverse = bitsVal b / 256 % 256 := by
    omega
  have g4 : valLE (b.drop 24).reverse = bitsVal b % 256 := by omega
  rw [g1, g2, g3, g4]
  rfl

/-! ## Inversion helpers -/

theorem bind_ok_inv {α β : Type} {x : Except String α} {f : α → Except String β}
    {r : β} (h : x >>= f = .ok r) : ∃ a, x = .ok a ∧ f a = .ok r := by
  cases x with
  | error e => exact absurd h (by simp [Bind.bind, Except.bind])
  | ok a => exact ⟨a, rfl, h⟩

theorem ok_bind {α β : Type} (a : α) (f : α → Except String β) :
    (Except.ok a : Except String α) >>= f = f a := rfl

theorem binaryToIP_ok_inv {b r : List Char} (h : binaryToIP b = .ok r) :
    b.length = 32 ∧ (∀ c ∈ b, isBit c = true) ∧
      r = canonicalIp (bitsVal b) ∧ bitsVal b < 2 ^ 32 := by
  by_cases hg : (b.length = 32 && b.all isBit) = true
  · simp only [Bool.and_eq_true, decide_eq_true_eq] at hg
    obtain ⟨hlen, hall⟩ := hg
    rw [List.all_eq_true] at hall
    obtain ⟨hw, hlt⟩ := binaryToIP_wf b hlen hall
    rw [hw] at h
    exact ⟨hlen, hall, (Except.ok.injEq _ _ ▸ h).symm, hlt⟩
  · rw [binaryToIP, if_neg hg] at h
    exact absurd h (by simp)

/-! ## Per-CIDR ground facts (33 cases, decided by evaluation) -/

theorem maskVal_lt (c : Nat) : maskVal c < 2 ^ 32 := by
  have h1 : 0 < 2 ^ (32 - c) := Nat.pos_pow_of_pos _ (by norm_num)
  have h2 : 0 < 2 ^ 32 := Nat.pos_pow_of_pos _ (by norm_num)
  unfold maskVal
  omega

theorem wildVal_lt (c : Nat) : wildVal c < 2 ^ 32 := by
  have h2 : 0 < 2 ^ 32 := Nat.pos_pow_of_pos _ (by norm_num)
  unfold wildVal
  omega

theorem cidrFacts : ∀ c : Nat, c < 33 →
    calculateSubnetMask (c : Int) = .ok (canonicalIp (maskVal c)) ∧
    normalizeMaskToCIDR (canonicalIp (maskVal c)) = .ok (c : Int) ∧
    calculateWildCardMask (canonicalIp (maskVal c)) = .ok (canonicalIp (wildVal c)) ∧
    calculateAvailableIPs (Int.repr (c : Int)).data = .ok ((2 : Int) ^ (32 - c) - 2) := by
  decide

/-! ## Address arithmetic on canonical text -/

theorem incrementIP_canonical (v : Nat) (hv : v < 2 ^ 32) (h1 : v + 1 < 2 ^ 32) :
    incrementIP (canonicalIp v) = .ok (canonicalIp (v + 1)) := by
  rw [incrementIP, ipToBinary_canonicalIp v hv, ok_bind]
  rw [bitsVal_bin32 v hv, padStart_jsBin 32 (v + 1) (by norm_num) (by norm_num) h1]
  have hw := binaryToIP_wf (bin32 (v + 1)) (bin32_length _) (bin32_isBit _)
  rw [show (binLE 32 (v + 1)).reverse = bin32 (v + 1) from rfl, hw.1,
    bitsVal_bin32 _ h1]

set_option maxHeartbeats 2000000 in
theorem incrementIP_canonical_max :
    incrementIP (canonicalIp (2 ^ 32 - 1)) = .error "Invalid binary string" := by
  decide

theorem decrementIP_canonical (v : Nat) (hv : v < 2 ^ 32) (h1 : 1 ≤ v) :
    decrementIP (canonicalIp v) = .ok (canonicalIp (v - 1)) := by
  rw [decrementIP, ipToBinary_canonicalIp v hv, ok_bind]
  rw [bitsVal_bin32 v hv]
  have he : jsBinInt ((v : Int) - 1) = jsBin (v - 1) := by
    rw [jsBinInt, if_neg (by omega)]
    congr 1
    omega
  rw [he, padStart_jsBin 32 (v - 1) (by norm_num) (by norm_num) (by omega)]
  have hw := binaryToIP_wf (bin32 (v - 1)) (bin32_length _) (bin32_isBit _)
  rw [show (binLE 32 (v - 1)).reverse = bin32 (v - 1) from rfl, hw.1,
    bitsVal_bin32 _ (by omega)]

theorem decrementIP_canonical_zero :
    decrementIP (canonicalIp 0) = .error "Invalid binary string" := by
  decide

/-! ## Broadcast and network on canonical text -/

theorem zipWith_bitChar_isBit (f : Char → Char → Bool) (a b : List Char) :
    ∀ x ∈ List.zipWith (fun p q => bitChar (f p q)) a b, isBit x = true := by
  induction a generalizing b with
  | nil => simp
  | cons c cs ih =>
    cases b with
    | nil => simp
    | cons d ds =>
      simp only [List.zipWith_cons_cons, List.mem_cons, forall_eq_or_imp]
      exact ⟨by cases h : f c d <;> simp [bitChar, h, isBit], ih ds⟩

theorem orBits_bin32 (v m : Nat) :
    orBits (bin32 v) (notBits (bin32 m)) = (List.zipWith
      (fun x y => bitChar (x = '1' || y = '1')) (binLE 32 v)
        (notBits (binLE 32 m))).reverse := by
  rw [orBits, bin32, bin32, show notBits ((binLE 32 m).reverse)
    = (notBits (binLE 32 m)).reverse from List.map_reverse _ _]
  rw [← List.zipWith_distrib_reverse]
  rw [notBits_length, binLE_length, binLE_length]

theorem broadcast_canonical (v c : Nat) (hv : v < 2 ^ 32) (hc : c < 33) :
    calculateBroadcastAddress (canonicalIp v) (canonicalIp (maskVal c)) =
      .ok (canonicalIp (v ||| wildVal c)) ∧ v ||| wildVal c < 2 ^ 32 := by
  obtain ⟨hmask, hnorm, -, -⟩ := cidrFacts c hc
  have hL : (List.zipWith (fun x y => bitChar (x = '1' || y = '1'))
      (binLE 32 v) (notBits (binLE 32 (maskVal c)))).length = 32 := by
    rw [List.length_zipWith, notBits_length, binLE_length, binLE_length]
    rfl
  have hbitsL := zipWith_bitChar_isBit (fun x y => x = '1' || y = '1')
    (binLE 32 v) (notBits (binLE 32 (maskVal c)))
  have hlenR : (List.zipWith (fun x y => bitChar (x = '1' || y = '1'))
      (binLE 32 v) (notBits (binLE 32 (maskVal c)))).reverse.length = 32 := by
    rw [List.length_reverse, hL]
  have hbitsR : ∀ x ∈ (List.zipWith (fun x y => bitChar (x = '1' || y = '1'))
      (binLE 32 v) (notBits (binLE 32 (maskVal c)))).reverse, isBit x = true := by
    intro x hx
    exact hbitsL x (List.mem_reverse.mp hx)
  have hval : bitsVal (List.zipWith (fun x y => bitChar (x = '1' || y = '1'))
      (binLE 32 v) (notBits (binLE 32 (maskVal c)))).reverse
      = v ||| wildVal c := by
    rw [bitsVal_eq_valLE _ hbitsR, List.reverse_reverse,
      valLE_orBits _ _ (by rw [notBits_length, binLE_length, binLE_length]),
      valLE_notBits _ (binLE_isBit 32 (maskVal c)), valLE_binLE, valLE_binLE,
      binLE_length, Nat.mod_eq_of_lt hv, Nat.mod_eq_of_lt (maskVal_lt c)]
    rfl
  obtain ⟨hwf, hlt⟩ := binaryToIP_wf _ hlenR hbitsR
  rw [hval] at hwf hlt
  refine ⟨?_, hlt⟩
  rw [calculateBroadcastAddress, if_pos (isValidIPv4_canonicalIp v hv),
    hnorm, ok_bind, hmask, ok_bind, ipToBinary_canonicalIp v hv, ok_bind,
    ipToBinary_canonicalIp _ (maskVal_lt c), ok_bind, orBits_bin32, hwf]

theorem calculateNetworkAddress_ok_inv {ip s na : List Char}
    (h : calculateNetworkAddress ip s = .ok na) :
    ∃ v, v < 2 ^ 32 ∧ na = canonicalIp v := by
  rw [calculateNetworkAddress] at h
  by_cases hip : isValidIPv4 ip = true
  · rw [if_pos hip] at h
    obtain ⟨cidr, h1, h⟩ := bind_ok_inv h
    obtain ⟨mask, h2, h⟩ := bind_ok_inv h
    obtain ⟨ipb, h3, h⟩ := bind_ok_inv h
    obtain ⟨mb, h4, h⟩ := bind_ok_inv h
    obtain ⟨hlen, hbits, hna, hlt⟩ := binaryToIP_ok_inv h
    exact ⟨bitsVal (andBits ipb mb), hlt, hna⟩
  · rw [if_neg hip] at h
    exact absurd h (by simp)

theorem calcIPRange_inv (v c : Nat) (hv : v < 2 ^ 32) (hc : c < 33)
    {fst lst : List Char}
    (h : calculateIPRange (canonicalIp v) (canonicalIp (maskVal c)) =
      .ok (fst, lst)) :
    v + 1 < 2 ^ 32 ∧ 1 ≤ v ||| wildVal c ∧ fst = canonicalIp (v + 1) ∧
      lst = canonicalIp ((v ||| wildVal c) - 1) := by
  obtain ⟨hmask, hnorm, -, -⟩ := cidrFacts c hc
  rw [calculateIPRange, hnorm, ok_bind, hmask, ok_bind] at h
  have hv1 : v + 1 < 2 ^ 32 := by
    by_contra hge
    have hveq : v = 2 ^ 32 - 1 := by
      have h2 : 0 < 2 ^ 32 := Nat.pos_pow_of_pos _ (by norm_num)
      omega
    rw [hveq, incrementIP_canonical_max] at h
    exact absurd h (by simp [Bind.bind, Except.bind])
  rw [incrementIP_canonical v hv hv1, ok_bind] at h
  rw [(broadcast_canonical v c hv hc).1, ok_bind] at h
  have hb := (broadcast_canonical v c hv hc).2
  have hbpos : 1 ≤ v ||| wildVal c := by
    by_contra hlt0
    have h0 : v ||| wildVal c = 0 := by omega
    rw [h0, decrementIP_canonical_zero] at h
    exact absurd h (by simp [Bind.bind, Except.bind])
  rw [decrementIP_canonical _ hb hbpos, ok_bind] at h
  simp only [Except.ok.injEq, Prod.mk.injEq] at h
  exact ⟨hv1, hbpos, h.1.symm, h.2.symm⟩

theorem ok_inj {α : Type} {a b : α}
    (h : (Except.ok a : Except String α) = .ok b) : a = b := Except.ok.inj h

theorem le_lor_32 (a b : Nat) (ha : a < 2 ^ 32) (hb : b < 2 ^ 32) :
    a ≤ a ||| b := by
  have h1 := valLE_le_orBits (binLE 32 a) (binLE 32 b)
    (by rw [binLE_length, binLE_length])
  rw [valLE_orBits _ _ (by rw [binLE_length, binLE_length]), valLE_binLE,
    valLE_binLE, Nat.mod_eq_of_lt ha, Nat.mod_eq_of_lt hb] at h1
  exact h1

/-! ## The placement-loop invariant -/

/-- Invariant of the records produced by the `allocateSubnets` placement
loop started at cursor value `v`: each record's fields are the canonical
texts of the numeric network, mask, broadcast and usable range, the
broadcast is `network OR wildcard`, and the cursor moves to
`broadcast + 1` for the remaining records. -/
def ChainFrom : Nat → List SubnetAllocation → Prop
  | _, [] => True
  | v, r :: rest =>
    v < 2 ^ 32 ∧
    ∃ c : Nat, c < 33 ∧ r.cidr = (c : Int) ∧
      r.network = canonicalIp v ∧
      r.subnetMask = canonicalIp (maskVal c) ∧
      r.broadcast = canonicalIp (v ||| wildVal c) ∧
      r.firstIP = canonicalIp (v + 1) ∧
      r.lastIP = canonicalIp ((v ||| wildVal c) - 1) ∧
      v + 1 < 2 ^ 32 ∧ 1 ≤ v ||| wildVal c ∧ (v ||| wildVal c) + 1 < 2 ^ 32 ∧
      ChainFrom ((v ||| wildVal c) + 1) rest

theorem allocGo_chain : ∀ (sizes : List Int) (v : Nat)
    (rs : List SubnetAllocation), v < 2 ^ 32 →
    allocGo sizes (bin32 v) = .ok rs → ChainFrom v rs := by
  intro sizes
  induction sizes with
  | nil =>
    intro v rs hv h
    simp only [allocGo] at h
    rw [← ok_inj h]
    trivial
  | cons size rest ih =>
    intro v rs hv h
    simp only [allocGo] at h
    obtain ⟨mask, hmask, h⟩ := bind_ok_inv h
    have hsize : isValidCIDR size = true := by
      by_contra hno
      rw [calculateSubnetMask, if_neg hno] at hmask
      exact absurd hmask (by simp)
    simp only [isValidCIDR, Bool.and_eq_true, decide_eq_true_eq] at hsize
    lift size to Nat using hsize.1 with c
    have hc : c < 33 := by
      have h32 := hsize.2
      omega
    rw [(cidrFacts c hc).1] at hmask
    have hmask' := ok_inj hmask
    subst hmask'
    obtain ⟨network, hnet, h⟩ := bind_ok_inv h
    rw [(binaryToIP_wf (bin32 v) (bin32_length v) (bin32_isBit v)).1,
      bitsVal_bin32 v hv] at hnet
    have hnet' := ok_inj hnet
    subst hnet'
    obtain ⟨bcast, hbc, h⟩ := bind_ok_inv h
    rw [(broadcast_canonical v c hv hc).1] at hbc
    have hbc' := ok_inj hbc
    subst hbc'
    obtain ⟨range, hrange, h⟩ := bind_ok_inv h
    obtain ⟨fst, lst⟩ := range
    obtain ⟨hv1, hbpos, hfst, hlst⟩ := calcIPRange_inv v c hv hc hrange
    subst hfst
    subst hlst
    obtain ⟨nextIp, hni, h⟩ := bind_ok_inv h
    have hb32 := (broadcast_canonical v c hv hc).2
    have hb1 : (v ||| wildVal c) + 1 < 2 ^ 32 := by
      by_contra hge
      have h2 : 0 < 2 ^ 32 := Nat.pos_pow_of_pos _ (by norm_num)
      have hbeq : v ||| wildVal c = 2 ^ 32 - 1 := by omega
      rw [hbeq, incrementIP_canonical_max] at hni
      exact absurd hni (by simp)
    rw [incrementIP_canonical _ hb32 hb1] at hni
    have hni' := ok_inj hni
    subst hni'
    obtain ⟨nextNet, hnn, h⟩ := bind_ok_inv h
    rw [ipToBinary_canonicalIp _ hb1] at hnn
    have hnn' := ok_inj hnn
    subst hnn'
    obtain ⟨wcm, hwcm, h⟩ := bind_ok_inv h
    obtain ⟨avail, hav, h⟩ := bind_ok_inv h
    obtain ⟨rs2, hrec, h⟩ := bind_ok_inv h
    rw [← ok_inj h]
    exact ⟨hv, c, hc, rfl, rfl, rfl, rfl, rfl, rfl, hv1, hbpos, hb1,
      ih ((v ||| wildVal c) + 1) rs2 hb1 hrec⟩

theorem chainFrom_network_lb : ∀ (v : Nat) (rs : List SubnetAllocation),
    ChainFrom v rs → ∀ r ∈ rs,
      ∃ n, ipNum r.network = some n ∧ v ≤ n ∧ n < 2 ^ 32 := by
  intro v rs
  induction rs generalizing v with
  | nil => simp
  | cons r rest ih =>
    intro hch r' hr'
    obtain ⟨hv, c, hc, hcidr, hnet, hmask, hbc, hfst, hlst, hv1, hbpos, hb1,
      hrest⟩ := hch
    rcases List.mem_cons.mp hr' with rfl | hr'
    · exact ⟨v, by rw [hnet]; exact ipNum_canonicalIp v hv, Nat.le_refl v, hv⟩
    · obtain ⟨n, hn, hle, hlt⟩ := ih _ hrest r' hr'
      have hvb : v ≤ v ||| wildVal c := le_lor_32 v _ hv (wildVal_lt c)
      exact ⟨n, hn, by omega, hlt⟩

theorem chainFrom_pairwise : ∀ (v : Nat) (rs : List SubnetAllocation),
    ChainFrom v rs → List.Pairwise (fun r1 r2 => ∃ b n,
      ipNum r1.broadcast = some b ∧ ipNum r2.network = some n ∧ b < n) rs := by
  intro v rs
  induction rs generalizing v with
  | nil => intro; exact List.Pairwise.nil
  | cons r rest ih =>
    intro hch
    obtain ⟨hv, c, hc, hcidr, hnet, hmask, hbc, hfst, hlst, hv1, hbpos, hb1,
      hrest⟩ := hch
    refine List.Pairwise.cons ?_ (ih _ hrest)
    intro r' hr'
    obtain ⟨n, hn, hle, hlt⟩ := chainFrom_network_lb _ _ hrest r' hr'
    refine ⟨v ||| wildVal c, n, ?_, hn, by omega⟩
    rw [hbc]
    exact ipNum_canonicalIp _ (by omega)

theorem chainFrom_records : ∀ (v : Nat) (rs : List SubnetAllocation),
    ChainFrom v rs → ∀ r ∈ rs,
      ∃ n m b, ipNum r.network = some n ∧ ipNum r.subnetMask = some m ∧
        ipNum r.broadcast = some b ∧ ipNum r.firstIP = some (n + 1) ∧
        ipNum r.lastIP = some (b - 1) ∧ b = n ||| (2 ^ 32 - 1 - m) ∧
        b < 2 ^ 32 - 1 ∧ m = 2 ^ 32 - 2 ^ (32 - (r.cidr).toNat) := by
  intro v rs
  induction rs generalizing v with
  | nil => simp
  | cons r rest ih =>
    intro hch r' hr'
    obtain ⟨hv, c, hc, hcidr, hnet, hmask, hbc, hfst, hlst, hv1, hbpos, hb1,
      hrest⟩ := hch
    rcases List.mem_cons.mp hr' with rfl | hr'
    · refine ⟨v, maskVal c, v ||| wildVal c, ?_, ?_, ?_, ?_, ?_, rfl, by omega, ?_⟩
      · rw [hnet]; exact ipNum_canonicalIp v hv
      · rw [hmask]; exact ipNum_canonicalIp _ (maskVal_lt c)
      · rw [hbc]; exact ipNum_canonicalIp _ (by omega)
      · rw [hfst]; exact ipNum_canonicalIp _ hv1
      · rw [hlst]; exact ipNum_canonicalIp _ (by omega)
      · rw [hcidr, maskVal]
        simp
    · exact ih _ hrest r' hr'

theorem allocateSubnets_ok_inv {ip s : List Char} {hosts : List Int}
    {rs : List SubnetAllocation} (h : allocateSubnets ip s hosts = .ok rs) :
    ∃ v, v < 2 ^ 32 ∧ ChainFrom v rs := by
  rw [allocateSubnets] at h
  obtain ⟨na, hna, h⟩ := bind_ok_inv h
  obtain ⟨v, hv, hnaeq⟩ := calculateNetworkAddress_ok_inv hna
  subst hnaeq
  obtain ⟨cur, hcur, h⟩ := bind_ok_inv h
  rw [ipToBinary_canonicalIp v hv] at hcur
  have hcur' := ok_inj hcur
  subst hcur'
  obtain ⟨sp, hsp, h⟩ := bind_ok_inv h
  exact ⟨v, hv, allocGo_chain _ v rs hv h⟩

/-! ## Sorting and sizing lemmas -/

theorem sortDesc_sorted (l : List Int) : List.Sorted (· ≥ ·) (sortDesc l) :=
  List.sorted_insertionSort _ _

theorem sortDesc_perm (l : List Int) : (sortDesc l).Perm l :=
  List.perm_insertionSort _ _

theorem sortDesc_eq_of_perm {l1 l2 : List Int} (h : l1.Perm l2) :
    sortDesc l1 = sortDesc l2 :=
  List.eq_of_perm_of_sorted
    ((sortDesc_perm l1).trans (h.trans (sortDesc_perm l2).symm))
    (sortDesc_sorted l1) (sortDesc_sorted l2)

theorem perm_all_eq {l1 l2 : List Int} (h : l1.Perm l2) (p : Int → Bool) :
    l1.all p = l2.all p := by
  cases h1 : l1.all p <;> cases h2 : l2.all p
  · rfl
  · rw [List.all_eq_true] at h2
    have : l1.all p = true := by
      rw [List.all_eq_true]
      exact fun x hx => h2 x (h.mem_iff.mp hx)
    rw [h1] at this
    exact this
  · rw [List.all_eq_true] at h1
    have : l2.all p = true := by
      rw [List.all_eq_true]
      exact fun x hx => h1 x (h.mem_iff.mpr hx)
    rw [h2] at this
    exact this.symm
  · rfl

theorem clog2Aux_eq : ∀ fuel n, n ≤ fuel → clog2Aux fuel n = Nat.clog 2 n := by
  intro fuel
  induction fuel with
  | zero =>
    intro n hn
    have h0 : n = 0 := by omega
    subst h0
    rw [Nat.clog_of_right_le_one (by norm_num)]
    rfl
  | succ f ih =>
    intro n hn
    by_cases h1 : n ≤ 1
    · simp only [clog2Aux, if_pos h1]
      rw [Nat.clog_of_right_le_one h1]
    · have h2 : 2 ≤ n := by omega
      have harg : (n + 2 - 1) / 2 = (n + 1) / 2 := by omega
      simp only [clog2Aux, if_neg h1]
      rw [ih ((n + 1) / 2) (by omega), Nat.clog_of_two_le (by norm_num) h2,
        harg]

theorem requiredCidr_eq (c : Int) :
    requiredCidr c = 32 - (Nat.clog 2 (c + 2).toNat : Int) := by
  rw [requiredCidr, clog2Aux_eq _ _ (Nat.le_refl _)]

/-! ## Canonical-form round trip -/

theorem list_len4 {α : Type} {l : List α} (h : l.length = 4) :
    ∃ a b c d, l = [a, b, c, d] := by
  rcases l with _ | ⟨a, l⟩
  · simp at h
  rcases l with _ | ⟨b, l⟩
  · simp at h
  rcases l with _ | ⟨c, l⟩
  · simp at h
  rcases l with _ | ⟨d, l⟩
  · simp at h
  rcases l with _ | ⟨e, l⟩
  · exact ⟨a, b, c, d, rfl⟩
  · simp only [List.length_cons] at h
    omega

theorem valid_canonical_eq (s : List Char) (hval : isValidIPv4 s = true)
    (hcan : ∀ p ∈ splitCh '.' s, p = (Nat.repr (digitsVal p)).data) :
    ∃ v, v < 2 ^ 32 ∧ s = canonicalIp v := by
  simp only [isValidIPv4, Bool.and_eq_true, decide_eq_true_eq] at hval
  obtain ⟨⟨hlen, hshape⟩, hbound⟩ := hval
  obtain ⟨p1, p2, p3, p4, hps⟩ := list_len4 hlen
  rw [List.all_eq_true] at hbound
  have h1 : digitsVal p1 ≤ 255 := by
    have := hbound p1 (by rw [hps]; simp)
    simpa using this
  have h2 : digitsVal p2 ≤ 255 := by
    have := hbound p2 (by rw [hps]; simp)
    simpa using this
  have h3 : digitsVal p3 ≤ 255 := by
    have := hbound p3 (by rw [hps]; simp)
    simpa using this
  have h4 : digitsVal p4 ≤ 255 := by
    have := hbound p4 (by rw [hps]; simp)
    simpa using this
  refine ⟨((digitsVal p1 * 256 + digitsVal p2) * 256 + digitsVal p3) * 256
    + digitsVal p4, by omega, ?_⟩
  have e1 : (((digitsVal p1 * 256 + digitsVal p2) * 256 + digitsVal p3) * 256
      + digitsVal p4) / 16777216 = digitsVal p1 := by omega
  have e2 : (((digitsVal p1 * 256 + digitsVal p2) * 256 + digitsVal p3) * 256
      + digitsVal p4) / 65536 % 256 = digitsVal p2 := by omega
  have e3 : (((digitsVal p1 * 256 + digitsVal p2) * 256 + digitsVal p3) * 256
      + digitsVal p4) / 256 % 256 = digitsVal p3 := by omega
  have e4 : (((digitsVal p1 * 256 + digitsVal p2) * 256 + digitsVal p3) * 256
      + digitsVal p4) % 256 = digitsVal p4 := by omega
  have hj : s = joinCh '.' (splitCh '.' s) := (joinCh_splitCh '.' s).symm
  rw [hj, hps, canonicalIp, e1, e2, e3, e4]
  rw [hcan p1 (by rw [hps]; simp), hcan p2 (by rw [hps]; simp),
    hcan p3 (by rw [hps]; simp), hcan p4 (by rw [hps]; simp),
    (reprFacts _ (by omega : digitsVal p1 < 256)).1,
    (reprFacts _ (by omega : digitsVal p2 < 256)).1,
    (reprFacts _ (by omega : digitsVal p3 < 256)).1,
    (reprFacts _ (by omega : digitsVal p4 < 256)).1]

/-! # Claims -/

/-- C1: for every valid base IP, valid mask-or-prefix string and host-count
list on which `allocateSubnets` returns normally, the returned records are
pairwise non-overlapping: for any two records (in output order) the numeric
value of the earlier record's broadcast address is strictly less than the
numeric value of the later record's network address. -/
theorem claim_C1 (ip s : List Char) (hosts : List Int)
    (rs : List SubnetAllocation) (h : allocateSubnets ip s hosts = .ok rs) :
    List.Pairwise (fun r1 r2 => ∃ b n, ipNum r1.broadcast = some b ∧
      ipNum r2.network = some n ∧ b < n) rs := by
  obtain ⟨v, hv, hch⟩ := allocateSubnets_ok_inv h
  exact chainFrom_pairwise v rs hch

/-- Witness for C1 at the allocation of host counts 24 and 26 inside
192.168.1.0/24. -/
theorem claim_C1_witness :
    List.Pairwise (fun r1 r2 => ∃ b n, ipNum r1.broadcast = some b ∧
      ipNum r2.network = some n ∧ b < n)
      ([⟨"192.168.1.0".data, "255.255.255.224".data, 27, "192.168.1.31".data,
        "192.168.1.1".data, "192.168.1.30".data, "0.0.0.31".data, 30⟩,
       ⟨"192.168.1.32".data, "255.255.255.224".data, 27, "192.168.1.63".data,
        "192.168.1.33".data, "192.168.1.62".data, "0.0.0.31".data, 30⟩] :
        List SubnetAllocation) :=
  claim_C1 "192.168.1.0".data "255.255.255.0".data [24, 26]
    [⟨"192.168.1.0".data, "255.255.255.224".data, 27, "192.168.1.31".data,
      "192.168.1.1".data, "192.168.1.30".data, "0.0.0.31".data, 30⟩,
     ⟨"192.168.1.32".data, "255.255.255.224".data, 27, "192.168.1.63".data,
      "192.168.1.33".data, "192.168.1.62".data, "0.0.0.31".data, 30⟩]
    (by decide)

/-- C2 counterexample: allocating a /24-sized request inside the /26
container 192.168.1.64/26 succeeds and yields a record whose network
address 192.168.1.64 is NOT fixed by its own subnet mask 255.255.255.0
(the loop uses the raw cursor with no alignment), so the claim's equation
`network AND subnetMask = network` fails. -/
theorem claim_C2_counterexample :
    (allocateSubnets "192.168.1.64".data "26".data [200]).map
        (List.map (fun r => (r.network, r.subnetMask)))
      = .ok [("192.168.1.64".data, "255.255.255.0".data)] ∧
    ipNum "192.168.1.64".data = some 3232235840 ∧
    ipNum "255.255.255.0".data = some 4294967040 ∧
    (3232235840 &&& 4294967040 : Nat) ≠ 3232235840 := by decide

/-- C2 (amended): every record of a successful `allocateSubnets` call
satisfies the last three equations as 32-bit numbers — broadcast = network
OR (bitwise complement of subnetMask), firstIP = network + 1, lastIP =
broadcast − 1 — but the first equation (network AND subnetMask = network)
need not hold, because the cursor is used as the network address without
alignment to the subnet's block size. -/
theorem claim_C2 (ip s : List Char) (hosts : List Int)
    (rs : List SubnetAllocation) (h : allocateSubnets ip s hosts = .ok rs) :
    ∀ r ∈ rs, ∃ n m b, ipNum r.network = some n ∧
      ipNum r.subnetMask = some m ∧ ipNum r.broadcast = some b ∧
      ipNum r.firstIP = some (n + 1) ∧ ipNum r.lastIP = some (b - 1) ∧
      b = n ||| (2 ^ 32 - 1 - m) := by
  obtain ⟨v, hv, hch⟩ := allocateSubnets_ok_inv h
  intro r hr
  obtain ⟨n, m, b, h1, h2, h3, h4, h5, h6, h7, h8⟩ :=
    chainFrom_records v rs hch r hr
  exact ⟨n, m, b, h1, h2, h3, h4, h5, h6⟩

/-- Witness for C2 at the allocation of one 2-host subnet inside
10.0.0.0/8. -/
theorem claim_C2_witness :
    ∃ n m b, ipNum "10.0.0.0".data = some n ∧
      ipNum "255.255.255.252".data = some m ∧
      ipNum "10.0.0.3".data = some b ∧
      ipNum "10.0.0.1".data = some (n + 1) ∧
      ipNum "10.0.0.2".data = some (b - 1) ∧
      b = n ||| (2 ^ 32 - 1 - m) :=
  claim_C2 "10.0.0.0".data "8".data [2]
    [⟨"10.0.0.0".data, "255.255.255.252".data, 30, "10.0.0.3".data,
      "10.0.0.1".data, "10.0.0.2".data, "0.0.0.3".data, 2⟩] (by decide)
    _ (List.mem_cons_self ..)

/-- C3: on positive host counts `calculateRequiredSubnets` succeeds and
returns one prefix per count — as a multiset, exactly the image of the
counts under `c ↦ 32 − ⌈log₂(c+2)⌉` — sorted in descending numeric order,
and the result is invariant under permutation of the input list. -/
theorem claim_C3 (hosts : List Int) (hpos : ∀ c ∈ hosts, 1 ≤ c) :
    ∃ out, calculateRequiredSubnets hosts = .ok out ∧
      out.length = hosts.length ∧
      out.Perm (hosts.map (fun c => 32 - (Nat.clog 2 (c + 2).toNat : Int))) ∧
      List.Sorted (· ≥ ·) out ∧
      ∀ hosts' : List Int, hosts'.Perm hosts →
        calculateRequiredSubnets hosts' = calculateRequiredSubnets hosts := by
  have hguard : hosts.all (fun c => -1 ≤ c) = true := by
    rw [List.all_eq_true]
    intro x hx
    have := hpos x hx
    simp only [decide_eq_true_eq]
    omega
  have hmapeq : hosts.map requiredCidr
      = hosts.map (fun c => 32 - (Nat.clog 2 (c + 2).toNat : Int)) :=
    List.map_congr_left (fun a _ => requiredCidr_eq a)
  refine ⟨sortDesc ((sortDesc hosts).map requiredCidr), ?_, ?_, ?_, ?_, ?_⟩
  · rw [calculateRequiredSubnets, calculateRequiredSubnetsSt, if_pos hguard]
    rfl
  · rw [(sortDesc_perm _).length_eq, List.length_map,
      (sortDesc_perm _).length_eq]
  · rw [← hmapeq]
    exact (sortDesc_perm _).trans ((sortDesc_perm hosts).map requiredCidr)
  · exact sortDesc_sorted _
  · intro hosts' hperm
    rw [calculateRequiredSubnets, calculateRequiredSubnets,
      calculateRequiredSubnetsSt, calculateRequiredSubnetsSt,
      perm_all_eq hperm, if_pos hguard, if_pos hguard]
    have heq : sortDesc ((sortDesc hosts').map requiredCidr)
        = sortDesc ((sortDesc hosts).map requiredCidr) :=
      sortDesc_eq_of_perm (((sortDesc_perm hosts').map requiredCidr).trans
        ((hperm.map requiredCidr).trans
          ((sortDesc_perm hosts).map requiredCidr).symm))
    dsimp only
    rw [heq]
    rfl

/-- Witness for C3 at the host counts 24 and 26. -/
theorem claim_C3_witness :
    ∃ out, calculateRequiredSubnets [24, 26] = .ok out ∧
      out.length = ([24, 26] : List Int).length ∧
      out.Perm (([24, 26] : List Int).map
        (fun c => 32 - (Nat.clog 2 (c + 2).toNat : Int))) ∧
      List.Sorted (· ≥ ·) out ∧
      ∀ hosts' : List Int, hosts'.Perm [24, 26] →
        calculateRequiredSubnets hosts' = calculateRequiredSubnets [24, 26] :=
  claim_C3 [24, 26] (by decide)

/-- C4: allocating host counts 24 and 26 inside 192.168.1.0 with mask
255.255.255.0 yields exactly two records, the first with firstIP
192.168.1.1 and the second with firstIP 192.168.1.33 (two /27 blocks placed
back to back from the network address). -/
theorem claim_C4 :
    (allocateSubnets "192.168.1.0".data "255.255.255.0".data [24, 26]).map
      (List.map SubnetAllocation.firstIP)
      = .ok ["192.168.1.1".data, "192.168.1.33".data] := by decide

/-- C5 counterexample: the double wildcard of the valid contiguous mask
255.255.255.0 is 255.255.255.255, not the mask itself — the intermediate
wildcard 0.0.0.255 is re-read by `normalizeMaskToCIDR` as the numeric
prefix 0 (`parseInt` stops at the first dot). -/
theorem claim_C5_counterexample :
    ((calculateWildCardMask "255.255.255.0".data) >>= calculateWildCardMask)
      = .ok "255.255.255.255".data ∧
    "255.255.255.255".data ≠ "255.255.255.0".data := by decide

/-- C5 (amended): applying `calculateWildCardMask` twice to the canonical
contiguous mask of prefix `c` returns that mask again exactly when `c` is 0
or 32; for every other prefix the numeric-first re-parse of the
intermediate wildcard breaks the involution. -/
theorem claim_C5 : ∀ c : Nat, c ≤ 32 →
    (((calculateSubnetMask (c : Int)) >>= fun m =>
        (calculateWildCardMask m) >>= calculateWildCardMask)
      = calculateSubnetMask (c : Int) ↔ (c = 0 ∨ c = 32)) := by decide

/-- Witness for C5 at prefix 24. -/
theorem claim_C5_witness :
    ((calculateSubnetMask (24 : Int)) >>= fun m =>
        (calculateWildCardMask m) >>= calculateWildCardMask)
      = calculateSubnetMask (24 : Int) ↔ ((24 : Nat) = 0 ∨ (24 : Nat) = 32) :=
  claim_C5 24 (by norm_num)

/-- C6 counterexample: the validator accepts 192.168.001.1 (leading zeros
parse as decimal), but the round trip returns the canonical spelling
192.168.1.1, which differs from the input. -/
theorem claim_C6_counterexample :
    isValidIPv4 "192.168.001.1".data = true ∧
    ((ipToBinary "192.168.001.1".data) >>= binaryToIP)
      = .ok "192.168.1.1".data ∧
    "192.168.1.1".data ≠ "192.168.001.1".data := by decide

/-- C6 (amended): for every address accepted by the validator whose octets
are written canonically (each octet text is the plain decimal rendering of
its value, no leading zeros), `binaryToIP (ipToBinary ip)` returns the
input unchanged. -/
theorem claim_C6 (s : List Char) (hval : isValidIPv4 s = true)
    (hcan : ∀ p ∈ splitCh '.' s, p = (Nat.repr (digitsVal p)).data) :
    (ipToBinary s >>= binaryToIP) = .ok s := by
  obtain ⟨v, hv, hs⟩ := valid_canonical_eq s hval hcan
  rw [hs, ipToBinary_canonicalIp v hv, ok_bind]
  obtain ⟨hw, -⟩ := binaryToIP_wf (bin32 v) (bin32_length v) (bin32_isBit v)
  rw [hw, bitsVal_bin32 v hv]

/-- Witness for C6 at 1.2.3.4. -/
theorem claim_C6_witness :
    (ipToBinary "1.2.3.4".data >>= binaryToIP) = .ok "1.2.3.4".data :=
  claim_C6 "1.2.3.4".data (by decide) (by decide)

/-- C7 counterexample: for prefix 31 the available-host count is 0, not
negative (2^(32−31) − 2 = 0); only prefix 32 yields a negative value. -/
theorem claim_C7_counterexample :
    calculateAvailableIPs "31".data = .ok 0 ∧ ¬ ((0 : Int) < 0) := by decide

/-- C7 (amended): for every prefix `p` in [0,32],
`calculateAvailableIPs` on the decimal string of `p` returns
`2^(32−p) − 2`; in particular 254 for 24, 2 for 30, 0 (not negative) for
31, and −1 for 32. -/
theorem claim_C7 : ∀ p : Nat, p ≤ 32 →
    calculateAvailableIPs (Nat.repr p).data
      = .ok ((2 : Int) ^ (32 - p) - 2) := by decide

/-- Witness for C7 at prefix 24. -/
theorem claim_C7_witness :
    calculateAvailableIPs (Nat.repr 24).data = .ok ((2 : Int) ^ (32 - 24) - 2) :=
  claim_C7 24 (by norm_num)

/-- C8 counterexample: `calculateRequiredSubnets` sorts its argument array
in place — after the call on [1, 3] the caller's list holds [3, 1], not the
original [1, 3]. -/
theorem claim_C8_counterexample :
    calculateRequiredSubnetsSt [1, 3] = .ok ([30, 29], [3, 1]) ∧
    ([3, 1] : List Int) ≠ [1, 3] := by decide

/-- C8 (amended): the sizing pass mutates the caller's host-count array,
sorting it descending in place; afterwards it holds the same elements as a
multiset (a permutation of the original), sorted descending. Outputs remain
deterministic functions of the input values. -/
theorem claim_C8 (hosts res post : List Int)
    (h : calculateRequiredSubnetsSt hosts = .ok (res, post)) :
    post = sortDesc hosts ∧ post.Perm hosts ∧ List.Sorted (· ≥ ·) post := by
  rw [calculateRequiredSubnetsSt] at h
  by_cases hg : hosts.all (fun c => -1 ≤ c) = true
  · rw [if_pos hg] at h
    have hpair := ok_inj h
    have hpost : post = sortDesc hosts := (congrArg Prod.snd hpair).symm
    exact ⟨hpost, hpost ▸ sortDesc_perm hosts, hpost ▸ sortDesc_sorted hosts⟩
  · rw [if_neg hg] at h
    exact absurd h (by simp)

/-- Witness for C8 at the host counts [1, 3]. -/
theorem claim_C8_witness :
    ([3, 1] : List Int) = sortDesc [1, 3] ∧
      ([3, 1] : List Int).Perm [1, 3] ∧
      List.Sorted (· ≥ ·) ([3, 1] : List Int) :=
  claim_C8 [1, 3] [30, 29] [3, 1] (by decide)

/-- C9: `binaryToIP` fails with the format error exactly when the input is
not 32 binary digits, and on every well-formed input it returns the
canonical dotted-decimal text of the big-endian value of those bits. -/
theorem claim_C9 :
    (∀ b : List Char, ¬ (b.length = 32 ∧ ∀ c ∈ b, isBit c = true) →
      binaryToIP b = .error "Invalid binary string") ∧
    (∀ b : List Char, b.length = 32 → (∀ c ∈ b, isBit c = true) →
      binaryToIP b = .ok (canonicalIp (bitsVal b)) ∧
        ipNum (canonicalIp (bitsVal b)) = some (bitsVal b) ∧
        bitsVal b < 2 ^ 32) := by
  constructor
  · intro b hno
    rw [binaryToIP, if_neg ?hg]
    case hg =>
      intro hg
      simp only [Bool.and_eq_true, decide_eq_true_eq, List.all_eq_true] at hg
      exact hno ⟨hg.1, hg.2⟩
  · intro b h1 h2
    obtain ⟨hw, hlt⟩ := binaryToIP_wf b h1 h2
    exact ⟨hw, ipNum_canonicalIp _ hlt, hlt⟩

/-- Witness for C9 at the 32-character binary form of 192.168.1.1. -/
theorem claim_C9_witness :
    binaryToIP "11000000101010000000000100000001".data
      = .ok (canonicalIp (bitsVal "11000000101010000000000100000001".data)) ∧
    ipNum (canonicalIp (bitsVal "11000000101010000000000100000001".data))
      = some (bitsVal "11000000101010000000000100000001".data) ∧
    bitsVal "11000000101010000000000100000001".data < 2 ^ 32 :=
  claim_C9.2 _ (by decide) (by decide)

/-- C10: at the 32-bit boundary the increment and decrement operations
raise the binary-format error instead of wrapping, `allocateSubnets`
propagates the error (here for a /24 placed at 255.255.255.0, whose
cursor would advance past 255.255.255.255), and consequently on every
successful call each record's broadcast value stays strictly below
2^32 − 1. -/
theorem claim_C10 :
    incrementIP "255.255.255.255".data = .error "Invalid binary string" ∧
    decrementIP "0.0.0.0".data = .error "Invalid binary string" ∧
    allocateSubnets "255.255.255.0".data "24".data [254]
      = .error "Invalid binary string" ∧
    ∀ (ip s : List Char) (hosts : List Int) (rs : List SubnetAllocation),
      allocateSubnets ip s hosts = .ok rs → ∀ r ∈ rs,
        ∃ b, ipNum r.broadcast = some b ∧ b < 2 ^ 32 - 1 := by
  refine ⟨by decide, by decide, by decide, ?_⟩
  intro ip s hosts rs h r hr
  obtain ⟨v, hv, hch⟩ := allocateSubnets_ok_inv h
  obtain ⟨n, m, b, -, -, h3, -, -, -, h7, -⟩ := chainFrom_records v rs hch r hr
  exact ⟨b, h3, h7⟩

/-- Witness for C10 at the allocation of one 62-host subnet inside
192.168.2.0/24. -/
theorem claim_C10_witness :
    ∃ b, ipNum "192.168.2.63".data = some b ∧ b < 2 ^ 32 - 1 :=
  claim_C10.2.2.2 "192.168.2.0".data "24".data [62]
    [⟨"192.168.2.0".data, "255.255.255.192".data, 26, "192.168.2.63".data,
      "192.168.2.1".data, "192.168.2.62".data, "0.0.0.63".data, 62⟩]
    (by decide) _ (List.mem_cons_self ..)
